import Mathlib

/-!
A shallow embedding of the steganography core of the repository
(`src/prj1/ppm.js` and `src/prj1/steg_module.js`).

Byte buffers (`Uint8Array`) are modelled as `List Nat`; reads out of
range yield the JavaScript-`undefined`-free default `0` only where the
original code can never actually read out of range (see the lemmas), and
`List.set` is a no-op out of range exactly as a `Uint8Array` store is.
JavaScript strings are modelled as lists of character codes (`List Nat`).
-/

namespace Steg

/-- Error kinds of the steganography module, named after the error-message
identifiers of `steg_module.js`. -/
inductive StegError where
  | STEG_MSG
  | STEG_TOO_BIG
  | STEG_NO_MSG
  | STEG_BAD_MSG
deriving DecidableEq

/-- The in-memory PPM image of `ppm.js`: meta fields plus the header bytes
and the pixel bytes. -/
structure Ppm where
  width : Nat
  height : Nat
  maxColors : Nat
  hdrBytes : List Nat
  pixelBytes : List Nat
deriving DecidableEq

/-- The prefix `STEG_MAGIC` (the characters s, t, g) as character codes. -/
def STEG_MAGIC : List Nat := [115, 116, 103]

/-- Write `bit` (0 or 1) into the least-significant bit of `bytes[i]`:
`bytes[i] = bytes[i] & ~1` or `bytes[i] = bytes[i] | 1` in `hide`.
Out-of-range stores are dropped, as for a `Uint8Array`. -/
def setLSB (bytes : List Nat) (i : Nat) (bit : Nat) : List Nat :=
  bytes.set i (2 * (bytes.getD i 0 / 2) + bit)

/-- The inner `while (mask != 0)` loop of `hide`: with `k` mask positions
remaining, the current mask is `1 <<< (k-1)`, so the bit stored at `i` is
`c / 2 ^ (k-1) % 2` (i.e. `(charCode & mask) != 0`). -/
def packCharLoop (c : Nat) : Nat → List Nat → Nat → List Nat
  | 0, bytes, _ => bytes
  | k + 1, bytes, i => packCharLoop c k (setLSB bytes i (c / 2 ^ k % 2)) (i + 1)

/-- The outer `for (const c of magicMsg)` loop of `hide`: pack each
character code MSB-first into the LSBs of eight successive bytes. -/
def packList : List Nat → List Nat → Nat → List Nat
  | [], bytes, _ => bytes
  | c :: cs, bytes, i => packList cs (packCharLoop c 8 bytes i) (i + 8)

/-- The inner bit-collection loop of `unhideLo`: with `k` mask positions
remaining the mask is `1 <<< (k-1)`, so `acc` gains `(bytes[i] & 1) * 2^(k-1)`.
(All call sites start at an index that is a multiple of 8 with the limit
`maxOffset` also a multiple of 8, so the `i < maxOffset` guard of the inner
loop never fires mid-character; the loop always completes its 8 steps.) -/
def decodeCharLoop (bytes : List Nat) : Nat → Nat → Nat → Nat
  | 0, _, acc => acc
  | k + 1, i, acc => decodeCharLoop bytes k (i + 1) (acc + bytes.getD i 0 % 2 * 2 ^ k)

/-- One character reassembled from the LSBs of `bytes[i] .. bytes[i+7]`. -/
def decodeChar (bytes : List Nat) (i : Nat) : Nat :=
  decodeCharLoop bytes 8 i 0

/-- The outer `while (i < maxOffset)` loop of `unhideLo`, with `fuel` the
number of whole characters remaining before `maxOffset`.  Mirrors the
source: break (returning the message so far) on a decoded zero character;
in bounded mode (`0 < msgLen`) break once `msgLen` characters are
collected; in unbounded mode (`msgLen < 0`) exiting the loop without a
zero character — including the case where the loop never ran — returns
`undefined` (`none`), via the `mask !== 0 || charCode !== 0` post-check. -/
def unhideGo (bytes : List Nat) (msgLen : Int) : Nat → Nat → List Nat → Option (List Nat)
  | 0, _, msg => if msgLen < 0 then none else some msg
  | fuel + 1, i, msg =>
    let c := decodeChar bytes i
    if c = 0 then some msg
    else if 0 < msgLen ∧ msgLen ≤ (msg.length : Int) + 1 then some (msg ++ [c])
    else unhideGo bytes msgLen fuel (i + 8) (msg ++ [c])

/-- Function `StegModule.prototype.unhideLo`: `maxOffset = floor(len/8)*8`, start at
`msgCharOffset * 8`, decode characters until a zero byte, the bound, or
`maxOffset`. -/
def unhideLo (bytes : List Nat) (msgCharOffset : Nat) (msgLen : Int) : Option (List Nat) :=
  let maxOffset := bytes.length / 8 * 8
  unhideGo bytes msgLen ((maxOffset - msgCharOffset * 8) / 8) (msgCharOffset * 8) []

/-- Function `StegModule.prototype.checkMagic`: bounded probe of the first three
hidden characters compared against `STEG_MAGIC`. -/
def checkMagic (pixelBytes : List Nat) : Bool :=
  decide (unhideLo pixelBytes 0 3 = some STEG_MAGIC)

/-- Function `StegModule.prototype.hide`.  The capacity test in the source is
`(STEG_MAGIC_LEN + msg.length + 1) > pixelBytes.length / CHAR_BIT` with
real division; for the integer left-hand side this is equivalent to
comparing against `floor(pixelBytes.length / 8)`, which is the `Nat`
division below. -/
def hide (img : Ppm) (msg : List Nat) : Except StegError Ppm :=
  if checkMagic img.pixelBytes then .error .STEG_MSG
  else if img.pixelBytes.length / 8 < STEG_MAGIC.length + msg.length + 1 then
    .error .STEG_TOO_BIG
  else
    .ok { img with pixelBytes := packList (STEG_MAGIC ++ msg ++ [0]) img.pixelBytes 0 }

/-- Function `StegModule.prototype.unhide`. -/
def unhide (img : Ppm) : Except StegError (List Nat) :=
  if checkMagic img.pixelBytes then
    match unhideLo img.pixelBytes 3 (-1) with
    | none => .error .STEG_BAD_MSG
    | some m => .ok m
  else .error .STEG_NO_MSG

/-! ## The PPM parser (`ppm.js`) -/

/-- Predicate `isspace` from `ppm.js` (`CTYPES`): space, tab, newline, carriage return. -/
def isspace (b : Nat) : Bool := b = 32 || b = 9 || b = 10 || b = 13

/-- Predicate `isdigit` from `ppm.js` (`CTYPES`): the ASCII digits 0-9. -/
def isdigit (b : Nat) : Bool := 48 ≤ b && b ≤ 57

/-- Length of the leading whitespace run (the first `while` of
`advanceOverNextInt`). -/
def skipSpaceCount : List Nat → Nat
  | [] => 0
  | b :: r => if isspace b then skipSpaceCount r + 1 else 0

/-- Length of the leading digit run (the second `while` of
`advanceOverNextInt`). -/
def digitCount : List Nat → Nat
  | [] => 0
  | b :: r => if isdigit b then digitCount r + 1 else 0

/-- Decimal value of a digit run, as computed by `Number(str)` on the
sliced digit characters (leading whitespace in the slice is ignored by
`Number`, so only the digit run matters). -/
def natOfDigits : List Nat → Nat → Nat
  | [], acc => acc
  | d :: r, acc => natOfDigits r (acc * 10 + (d - 48))

/-- Function `BufIndex.prototype.nextInt` backed by `advanceOverNextInt`: skip
whitespace from `index`; if the next byte exists and is a digit, consume
the digit run and return its value with the new index, else fail
(`advanceOverNextInt` returns `-1`, `nextInt` returns `undefined`).
The out-of-range default `0` is not a digit, so the range check is folded
into the digit test exactly as `index >= buf.length || !isdigit(buf[index])`. -/
def nextInt (buf : List Nat) (index : Nat) : Option (Nat × Nat) :=
  let j := index + skipSpaceCount (buf.drop index)
  if isdigit (buf.getD j 0) then
    let nd := digitCount (buf.drop j)
    some (natOfDigits ((buf.drop j).take nd) 0, j + nd)
  else none

/-- The result record of `ppmFormat`. -/
structure PpmMeta where
  width : Nat
  height : Nat
  maxColors : Nat
  pixelsIndex : Nat
deriving DecidableEq

/-- Function `ppmFormat` from `ppm.js`.  Note the magic test of the source
demands that `c0` differ from P AND that `c1` differ from 6 — a
conjunction: the buffer is rejected only when BOTH magic characters
differ (with a missing character counting as different). -/
def ppmFormat (bytes : List Nat) : Option PpmMeta :=
  let c0 := bytes.get? 0
  let c1 := bytes.get? 1
  let i2 := min bytes.length 2
  if c0 ≠ some 80 ∧ c1 ≠ some 54 then none
  else
    match nextInt bytes i2 with
    | none => none
    | some (w, i3) =>
      match nextInt bytes i3 with
      | none => none
      | some (h, i4) =>
        match nextInt bytes i4 with
        | none => none
        | some (mc, i5) =>
          let pixelsIndex := i5 + 1
          if 0 < w ∧ 0 < h ∧ mc = 255 ∧ bytes.length = pixelsIndex + w * h * 3 then
            some ⟨w, h, mc, pixelsIndex⟩
          else none

/-- The `Ppm` constructor applied to a byte buffer: run `ppmFormat`, then
split the buffer into header bytes and pixel bytes at `pixelsIndex`. -/
def parse (bytes : List Nat) : Option Ppm :=
  (ppmFormat bytes).map fun f =>
    { width := f.width
      height := f.height
      maxColors := f.maxColors
      hdrBytes := bytes.take f.pixelsIndex
      pixelBytes := bytes.drop f.pixelsIndex }

/-- Function `Ppm.prototype.bytes`: header bytes followed by pixel bytes. -/
def serialize (img : Ppm) : List Nat := img.hdrBytes ++ img.pixelBytes

/-! ## Concrete inputs used by witnesses and counterexamples -/

/-- The 24 bits of the characters s, t, g MSB-first — a buffer whose LSBs
bit-encode the recognition prefix. -/
def stgBits : List Nat :=
  [0,1,1,1,0,0,1,1, 0,1,1,1,0,1,0,0, 0,1,1,0,0,1,1,1]

/-- A 4x4 image with 48 zero pixel bytes (capacity 6 payload bytes). -/
def img48 : Ppm := ⟨4, 4, 255, [], List.replicate 48 0⟩

/-- Pixel bytes of `hide img48 [65]`: prefix, the byte 65, terminator, then the
8 untouched trailing bytes. -/
def hidden48A : List Nat :=
  stgBits ++ [0,1,0,0,0,0,0,1] ++ List.replicate 16 0

/-- Pixel bytes of `hide img48 [65, 66]` (a full-capacity message). -/
def hidden48AB : List Nat :=
  stgBits ++ [0,1,0,0,0,0,0,1] ++ [0,1,0,0,0,0,1,0] ++ List.replicate 8 0

/-- An image whose 24 pixel bytes bit-encode exactly the recognition
prefix, so `checkMagic` holds but the capacity is only 3 bytes. -/
def magicImg24 : Ppm := ⟨1, 1, 255, [], stgBits⟩

/-- A buffer whose magic marker reads "P5", not the supported "P6", but
whose remaining fields are well-formed (`1 1 255`, 3 pixel bytes). -/
def p5Buf : List Nat := [80, 53, 32, 49, 32, 49, 32, 50, 53, 53, 10, 7, 8, 9]

end Steg

section Sanity

open Steg

example : parse [80, 54, 32, 49, 32, 49, 32, 50, 53, 53, 10, 1, 2, 3] =
    some ⟨1, 1, 255, [80, 54, 32, 49, 32, 49, 32, 50, 53, 53, 10], [1, 2, 3]⟩ := by rfl

example : checkMagic (List.replicate 40 0) = false := by rfl

example :
    hide ⟨2, 2, 255, [], List.replicate 40 0⟩ [65] =
      .ok ⟨2, 2, 255, [],
        [0,1,1,1,0,0,1,1, 0,1,1,1,0,1,0,0, 0,1,1,0,0,1,1,1, 0,1,0,0,0,0,0,1] ++
          List.replicate 8 0⟩ := by rfl

example :
    unhide ⟨2, 2, 255, [],
      [0,1,1,1,0,0,1,1, 0,1,1,1,0,1,0,0, 0,1,1,0,0,1,1,1, 0,1,0,0,0,0,0,1] ++
        List.replicate 8 0⟩ = .ok [65] := by rfl

end Sanity

namespace Steg

/-! ## Basic buffer lemmas -/

theorem getD_set_ne (l : List Nat) (i x v : Nat) (h : x ≠ i) :
    (l.set i v).getD x 0 = l.getD x 0 := by
  simp [List.getD_eq_getD_get?, List.getElem?_set_ne (Ne.symm h)]

theorem getD_set_self (l : List Nat) (i v : Nat) (h : i < l.length) :
    (l.set i v).getD i 0 = v := by
  simp [List.getD_eq_getD_get?, List.getElem?_set_self h]

theorem setLSB_length (bytes : List Nat) (i bit : Nat) :
    (setLSB bytes i bit).length = bytes.length := by
  simp [setLSB]

theorem setLSB_getD_ne (bytes : List Nat) (i x bit : Nat) (h : x ≠ i) :
    (setLSB bytes i bit).getD x 0 = bytes.getD x 0 :=
  getD_set_ne _ _ _ _ h

theorem setLSB_getD_self (bytes : List Nat) (i bit : Nat) (h : i < bytes.length) :
    (setLSB bytes i bit).getD i 0 = 2 * (bytes.getD i 0 / 2) + bit :=
  getD_set_self _ _ _ h

theorem setLSB_getD_div2 (bytes : List Nat) (i x bit : Nat) (hbit : bit < 2) :
    (setLSB bytes i bit).getD x 0 / 2 = bytes.getD x 0 / 2 := by
  rcases eq_or_ne x i with rfl | h
  · rcases Nat.lt_or_ge x bytes.length with hl | hl
    · rw [setLSB_getD_self _ _ _ hl]; omega
    · rw [List.getD_eq_default _ _ (by rw [setLSB_length]; exact hl),
        List.getD_eq_default _ _ hl]
  · rw [setLSB_getD_ne _ _ _ _ h]

/-! ## packCharLoop lemmas -/

theorem packCharLoop_length (c : Nat) :
    ∀ (k : Nat) (bytes : List Nat) (i : Nat),
      (packCharLoop c k bytes i).length = bytes.length
  | 0, _, _ => rfl
  | k + 1, bytes, i => by
    simp [packCharLoop, packCharLoop_length c k, setLSB_length]

theorem packCharLoop_getD_lt (c : Nat) :
    ∀ (k : Nat) (bytes : List Nat) (i x : Nat), x < i →
      (packCharLoop c k bytes i).getD x 0 = bytes.getD x 0
  | 0, _, _, _, _ => rfl
  | k + 1, bytes, i, x, hx => by
    simp only [packCharLoop]
    rw [packCharLoop_getD_lt c k _ _ _ (by omega), setLSB_getD_ne _ _ _ _ (by omega)]

theorem packCharLoop_getD_ge (c : Nat) :
    ∀ (k : Nat) (bytes : List Nat) (i x : Nat), i + k ≤ x →
      (packCharLoop c k bytes i).getD x 0 = bytes.getD x 0
  | 0, _, _, _, _ => rfl
  | k + 1, bytes, i, x, hx => by
    simp only [packCharLoop]
    rw [packCharLoop_getD_ge c k _ _ _ (by omega), setLSB_getD_ne _ _ _ _ (by omega)]

theorem packCharLoop_getD_in (c : Nat) :
    ∀ (k : Nat) (bytes : List Nat) (i x : Nat), i ≤ x → x < i + k → x < bytes.length →
      (packCharLoop c k bytes i).getD x 0 =
        2 * (bytes.getD x 0 / 2) + c / 2 ^ (k - 1 - (x - i)) % 2
  | 0, _, _, _, h1, h2, _ => by omega
  | k + 1, bytes, i, x, h1, h2, h3 => by
    simp only [packCharLoop]
    rcases Nat.eq_or_lt_of_le h1 with heq | hlt
    · subst heq
      rw [packCharLoop_getD_lt c k _ _ _ (by omega), setLSB_getD_self _ _ _ h3]
      have he : k + 1 - 1 - (i - i) = k := by omega
      rw [he]
    · rw [packCharLoop_getD_in c k _ _ _ hlt (by omega) (by rw [setLSB_length]; exact h3),
        setLSB_getD_ne _ _ _ _ (by omega)]
      have he : k - 1 - (x - (i + 1)) = k + 1 - 1 - (x - i) := by omega
      rw [he]

theorem packCharLoop_getD_div2 (c : Nat) :
    ∀ (k : Nat) (bytes : List Nat) (i x : Nat),
      (packCharLoop c k bytes i).getD x 0 / 2 = bytes.getD x 0 / 2
  | 0, _, _, _ => rfl
  | k + 1, bytes, i, x => by
    simp only [packCharLoop]
    rw [packCharLoop_getD_div2 c k, setLSB_getD_div2 _ _ _ _ (Nat.mod_lt _ (by omega))]

/-! ## packList lemmas -/

theorem packList_length :
    ∀ (ms bytes : List Nat) (i : Nat), (packList ms bytes i).length = bytes.length
  | [], _, _ => rfl
  | c :: cs, bytes, i => by
    simp [packList, packList_length cs, packCharLoop_length]

theorem packList_getD_lt :
    ∀ (ms bytes : List Nat) (i x : Nat), x < i →
      (packList ms bytes i).getD x 0 = bytes.getD x 0
  | [], _, _, _, _ => rfl
  | c :: cs, bytes, i, x, hx => by
    simp only [packList]
    rw [packList_getD_lt cs _ _ _ (by omega), packCharLoop_getD_lt c 8 _ _ _ hx]

theorem packList_getD_ge :
    ∀ (ms bytes : List Nat) (i x : Nat), i + 8 * ms.length ≤ x →
      (packList ms bytes i).getD x 0 = bytes.getD x 0
  | [], _, _, _, _ => rfl
  | c :: cs, bytes, i, x, hx => by
    simp only [List.length_cons] at hx
    simp only [packList]
    rw [packList_getD_ge cs _ _ _ (by omega), packCharLoop_getD_ge c 8 _ _ _ (by omega)]

theorem packList_getD_div2 :
    ∀ (ms bytes : List Nat) (i x : Nat),
      (packList ms bytes i).getD x 0 / 2 = bytes.getD x 0 / 2
  | [], _, _, _ => rfl
  | c :: cs, bytes, i, x => by
    simp only [packList]
    rw [packList_getD_div2 cs, packCharLoop_getD_div2]

end Steg

namespace Steg

/-! ## decodeChar lemmas -/

theorem decodeChar_eq (bytes : List Nat) (i : Nat) :
    decodeChar bytes i =
      bytes.getD i 0 % 2 * 128 + bytes.getD (i + 1) 0 % 2 * 64 +
      bytes.getD (i + 2) 0 % 2 * 32 + bytes.getD (i + 3) 0 % 2 * 16 +
      bytes.getD (i + 4) 0 % 2 * 8 + bytes.getD (i + 5) 0 % 2 * 4 +
      bytes.getD (i + 6) 0 % 2 * 2 + bytes.getD (i + 7) 0 % 2 := by
  simp only [decodeChar, decodeCharLoop, Nat.add_assoc]
  norm_num

theorem decodeChar_congr (a b : List Nat) (i : Nat)
    (h : ∀ t, t < 8 → a.getD (i + t) 0 = b.getD (i + t) 0) :
    decodeChar a i = decodeChar b i := by
  have h0 := h 0 (by omega)
  simp only [Nat.add_zero] at h0
  rw [decodeChar_eq, decodeChar_eq, h0, h 1 (by omega), h 2 (by omega),
    h 3 (by omega), h 4 (by omega), h 5 (by omega), h 6 (by omega), h 7 (by omega)]

theorem decodeChar_ge_128 (bytes : List Nat) (i : Nat) (h : bytes.getD i 0 % 2 = 1) :
    128 ≤ decodeChar bytes i := by
  rw [decodeChar_eq, h]
  omega

theorem decodeChar_packCharLoop (c : Nat) (bytes : List Nat) (i : Nat)
    (h : i + 8 ≤ bytes.length) :
    decodeChar (packCharLoop c 8 bytes i) i = c % 256 := by
  rw [decodeChar_eq,
    packCharLoop_getD_in c 8 bytes i i (by omega) (by omega) (by omega),
    packCharLoop_getD_in c 8 bytes i (i + 1) (by omega) (by omega) (by omega),
    packCharLoop_getD_in c 8 bytes i (i + 2) (by omega) (by omega) (by omega),
    packCharLoop_getD_in c 8 bytes i (i + 3) (by omega) (by omega) (by omega),
    packCharLoop_getD_in c 8 bytes i (i + 4) (by omega) (by omega) (by omega),
    packCharLoop_getD_in c 8 bytes i (i + 5) (by omega) (by omega) (by omega),
    packCharLoop_getD_in c 8 bytes i (i + 6) (by omega) (by omega) (by omega),
    packCharLoop_getD_in c 8 bytes i (i + 7) (by omega) (by omega) (by omega)]
  simp only [Nat.add_sub_cancel_left, Nat.sub_self]
  norm_num
  omega

theorem decodeChar_packList :
    ∀ (ms bytes : List Nat) (i0 j : Nat), j < ms.length →
      i0 + 8 * ms.length ≤ bytes.length →
      decodeChar (packList ms bytes i0) (i0 + 8 * j) = ms.getD j 0 % 256
  | [], _, _, _, hj, _ => by simp at hj
  | c :: cs, bytes, i0, 0, _, hcap => by
    simp only [List.length_cons] at hcap
    simp only [packList, Nat.mul_zero, Nat.add_zero, List.getD_cons_zero]
    rw [decodeChar_congr _ (packCharLoop c 8 bytes i0) i0
      (fun t ht => packList_getD_lt cs _ _ _ (by omega))]
    exact decodeChar_packCharLoop c bytes i0 (by omega)
  | c :: cs, bytes, i0, j + 1, hj, hcap => by
    simp only [List.length_cons] at hj hcap
    simp only [packList, List.getD_cons_succ]
    have hi : i0 + 8 * (j + 1) = (i0 + 8) + 8 * j := by ring
    rw [hi]
    exact decodeChar_packList cs _ (i0 + 8) j (by omega)
      (by rw [packCharLoop_length]; omega)

end Steg

namespace Steg

/-! ## unhideGo run lemmas -/

theorem unhideGo_bounded (bytes : List Nat) (nlen : Nat) :
    ∀ (ms : List Nat) (fuel i : Nat) (acc : List Nat),
      ms ≠ [] → acc.length + ms.length = nlen → ms.length ≤ fuel →
      (∀ t, t < ms.length → decodeChar bytes (i + 8 * t) = ms.getD t 0) →
      (∀ t, t < ms.length → ms.getD t 0 ≠ 0) →
      unhideGo bytes (nlen : Int) fuel i acc = some (acc ++ ms)
  | [], _, _, _, hne, _, _, _, _ => absurd rfl hne
  | c :: cs, fuel, i, acc, _, hlen, hfuel, hdec, hnz => by
    obtain ⟨f, rfl⟩ : ∃ f, fuel = f + 1 := by
      rcases fuel with _ | f
      · simp at hfuel
      · exact ⟨f, rfl⟩
    have hd0 : decodeChar bytes i = c := by
      have := hdec 0 (by simp)
      simpa using this
    have hc0 : c ≠ 0 := by simpa using hnz 0 (by simp)
    simp only [unhideGo, hd0, if_neg hc0]
    rcases List.eq_nil_or_concat' cs with rfl | hcs
    · have hstop : 0 < (nlen : Int) ∧ (nlen : Int) ≤ (acc.length : Int) + 1 := by
        simp only [List.length_cons, List.length_nil] at hlen
        constructor <;> [omega; omega]
      rw [if_pos hstop]
    · have hcs' : cs ≠ [] := by
        obtain ⟨l, a, rfl⟩ := hcs
        simp
      have hgo : ¬(0 < (nlen : Int) ∧ (nlen : Int) ≤ (acc.length : Int) + 1) := by
        simp only [List.length_cons] at hlen
        have : cs.length ≠ 0 := fun h => hcs' (List.eq_nil_of_length_eq_zero h)
        intro ⟨_, h2⟩
        omega
      rw [if_neg hgo]
      have := unhideGo_bounded bytes nlen cs f (i + 8) (acc ++ [c]) hcs'
        (by simp only [List.length_cons] at hlen; simp; omega)
        (by simp only [List.length_cons] at hfuel; omega)
        (fun t ht => by
          have := hdec (t + 1) (by simp; omega)
          simpa [Nat.mul_add, Nat.add_assoc, Nat.add_comm, Nat.add_left_comm] using this)
        (fun t ht => by simpa using hnz (t + 1) (by simp; omega))
      simpa using this

theorem unhideGo_unbounded (bytes : List Nat) :
    ∀ (ms : List Nat) (fuel i : Nat) (acc : List Nat),
      ms.length < fuel →
      (∀ t, t < ms.length → decodeChar bytes (i + 8 * t) = ms.getD t 0) →
      (∀ t, t < ms.length → ms.getD t 0 ≠ 0) →
      decodeChar bytes (i + 8 * ms.length) = 0 →
      unhideGo bytes (-1) fuel i acc = some (acc ++ ms)
  | [], fuel, i, acc, hfuel, _, _, hterm => by
    obtain ⟨f, rfl⟩ : ∃ f, fuel = f + 1 := by
      rcases fuel with _ | f
      · omega
      · exact ⟨f, rfl⟩
    have hd0 : decodeChar bytes i = 0 := by simpa using hterm
    simp [unhideGo, hd0]
  | c :: cs, fuel, i, acc, hfuel, hdec, hnz, hterm => by
    obtain ⟨f, rfl⟩ : ∃ f, fuel = f + 1 := by
      rcases fuel with _ | f
      · simp at hfuel
      · exact ⟨f, rfl⟩
    have hd0 : decodeChar bytes i = c := by simpa using hdec 0 (by simp)
    have hc0 : c ≠ 0 := by simpa using hnz 0 (by simp)
    have hnb : ¬((0 : Int) < -1 ∧ (-1 : Int) ≤ (acc.length : Int) + 1) := by
      intro ⟨h, _⟩
      omega
    simp only [unhideGo, hd0, if_neg hc0, if_neg hnb]
    have := unhideGo_unbounded bytes cs f (i + 8) (acc ++ [c])
      (by simp only [List.length_cons] at hfuel; omega)
      (fun t ht => by
        have := hdec (t + 1) (by simp; omega)
        simpa [Nat.mul_add, Nat.add_assoc, Nat.add_comm, Nat.add_left_comm] using this)
      (fun t ht => by simpa using hnz (t + 1) (by simp; omega))
      (by
        have h24 : i + 8 + 8 * cs.length = i + 8 * (cs.length + 1) := by ring
        rw [h24]
        simpa using hterm)
    simpa using this

theorem unhideGo_unterminated (bytes : List Nat) :
    ∀ (fuel i : Nat) (acc : List Nat),
      (∀ t, t < fuel → decodeChar bytes (i + 8 * t) ≠ 0) →
      unhideGo bytes (-1) fuel i acc = none
  | 0, i, acc, _ => by simp [unhideGo]
  | fuel + 1, i, acc, hnz => by
    have hd0 : decodeChar bytes i ≠ 0 := by simpa using hnz 0 (by omega)
    have hnb : ¬((0 : Int) < -1 ∧ (-1 : Int) ≤ (acc.length : Int) + 1) := by
      intro ⟨h, _⟩
      omega
    simp only [unhideGo, if_neg hd0, if_neg hnb]
    exact unhideGo_unterminated bytes fuel (i + 8) (acc ++ [decodeChar bytes i])
      (fun t ht => by
        have := hnz (t + 1) (by omega)
        simpa [Nat.mul_add, Nat.add_assoc, Nat.add_comm, Nat.add_left_comm] using this)

theorem unhideGo_congr (a b : List Nat) (ml : Int) :
    ∀ (fuel i : Nat) (acc : List Nat),
      (∀ x, i ≤ x → x < i + 8 * fuel → a.getD x 0 = b.getD x 0) →
      unhideGo a ml fuel i acc = unhideGo b ml fuel i acc
  | 0, _, _, _ => rfl
  | fuel + 1, i, acc, h => by
    have hd : decodeChar a i = decodeChar b i :=
      decodeChar_congr a b i (fun t ht => h (i + t) (by omega) (by omega))
    simp only [unhideGo, hd]
    rw [unhideGo_congr a b ml fuel (i + 8) (acc ++ [decodeChar b i])
      (fun x hx1 hx2 => h x (by omega) (by omega))]

theorem unhideGo_length_le (bytes : List Nat) (ml : Int) :
    ∀ (fuel i : Nat) (acc out : List Nat),
      unhideGo bytes ml fuel i acc = some out → out.length ≤ acc.length + fuel
  | 0, i, acc, out, h => by
    simp only [unhideGo] at h
    split at h
    · exact absurd h (by simp)
    · cases h
      omega
  | fuel + 1, i, acc, out, h => by
    simp only [unhideGo] at h
    split at h
    · cases h
      omega
    · split at h
      · cases h
        simp only [List.length_append, List.length_cons, List.length_nil]
        omega
      · have := unhideGo_length_le bytes ml fuel (i + 8) _ out h
        simp at this
        omega

end Steg

namespace Steg

/-! ## The payload `STEG_MAGIC ++ msg ++ [0]` -/

theorem payload_length (msg : List Nat) :
    (STEG_MAGIC ++ msg ++ [0]).length = msg.length + 4 := by
  simp [STEG_MAGIC]

theorem payload_getD_msg (msg : List Nat) (t : Nat) (ht : t < msg.length) :
    (STEG_MAGIC ++ msg ++ [0]).getD (3 + t) 0 = msg.getD t 0 := by
  rw [List.getD_append _ _ _ _
    (by simp only [List.length_append, STEG_MAGIC, List.length_cons, List.length_nil]; omega)]
  rw [List.getD_append_right _ _ _ _
    (by simp only [STEG_MAGIC, List.length_cons, List.length_nil]; omega)]
  have h3 : 3 + t - STEG_MAGIC.length = t := by
    simp only [STEG_MAGIC, List.length_cons, List.length_nil]
    omega
  rw [h3]

theorem payload_getD_term (msg : List Nat) :
    (STEG_MAGIC ++ msg ++ [0]).getD (3 + msg.length) 0 = 0 := by
  rw [List.getD_append_right _ _ _ _
    (by simp only [List.length_append, STEG_MAGIC, List.length_cons, List.length_nil]; omega)]
  have h3 : 3 + msg.length - (STEG_MAGIC ++ msg).length = 0 := by
    simp only [List.length_append, STEG_MAGIC, List.length_cons, List.length_nil]
    omega
  rw [h3]
  rfl

/-! ## Decoding a freshly hidden buffer -/

theorem decodeChar_hide (pb msg : List Nat) (j : Nat)
    (hcap : msg.length + 4 ≤ pb.length / 8) (hj : j < msg.length + 4) :
    decodeChar (packList (STEG_MAGIC ++ msg ++ [0]) pb 0) (8 * j) =
      (STEG_MAGIC ++ msg ++ [0]).getD j 0 % 256 := by
  have h8 : 0 + 8 * (STEG_MAGIC ++ msg ++ [0]).length ≤ pb.length := by
    rw [payload_length]
    omega
  have := decodeChar_packList (STEG_MAGIC ++ msg ++ [0]) pb 0 j
    (by rw [payload_length]; omega) h8
  simpa using this

theorem checkMagic_hide (pb msg : List Nat) (hcap : msg.length + 4 ≤ pb.length / 8) :
    checkMagic (packList (STEG_MAGIC ++ msg ++ [0]) pb 0) = true := by
  simp only [checkMagic, decide_eq_true_eq, unhideLo, packList_length]
  have hf : (pb.length / 8 * 8 - 0 * 8) / 8 = pb.length / 8 := by omega
  rw [hf]
  have h0 : (0 : Nat) * 8 = 0 := by omega
  rw [h0]
  have hrun := unhideGo_bounded (packList (STEG_MAGIC ++ msg ++ [0]) pb 0) 3
    [115, 116, 103] (pb.length / 8) 0 [] (by simp) (by simp)
    (by simp only [List.length_cons, List.length_nil]; omega)
    (fun t ht => by
      simp only [List.length_cons, List.length_nil] at ht
      have hd := decodeChar_hide pb msg t hcap (by omega)
      simp only [Nat.zero_add]
      interval_cases t <;> simpa [STEG_MAGIC] using hd)
    (by decide)
  simpa [STEG_MAGIC] using hrun

theorem unhideLo_hide (pb msg : List Nat)
    (hcap : msg.length + 4 ≤ pb.length / 8)
    (hbytes : ∀ b ∈ msg, 0 < b ∧ b < 256) :
    unhideLo (packList (STEG_MAGIC ++ msg ++ [0]) pb 0) 3 (-1) = some msg := by
  simp only [unhideLo, packList_length]
  have hf : (pb.length / 8 * 8 - 3 * 8) / 8 = pb.length / 8 - 3 := by omega
  rw [hf]
  have h38 : (3 : Nat) * 8 = 24 := by omega
  rw [h38]
  have hmem : ∀ t, t < msg.length → 0 < msg.getD t 0 ∧ msg.getD t 0 < 256 := by
    intro t ht
    have : msg.getD t 0 ∈ msg := by
      rw [List.getD_eq_getElem msg 0 ht]
      exact List.getElem_mem ht
    exact hbytes _ this
  have hrun := unhideGo_unbounded (packList (STEG_MAGIC ++ msg ++ [0]) pb 0)
    msg (pb.length / 8 - 3) 24 [] (by omega)
    (fun t ht => by
      have h24 : 24 + 8 * t = 8 * (3 + t) := by ring
      rw [h24, decodeChar_hide pb msg (3 + t) hcap (by omega), payload_getD_msg msg t ht]
      exact Nat.mod_eq_of_lt (hmem t ht).2)
    (fun t ht => by
      have := (hmem t ht).1
      omega)
    (by
      have h24 : 24 + 8 * msg.length = 8 * (3 + msg.length) := by ring
      rw [h24, decodeChar_hide pb msg (3 + msg.length) hcap (by omega),
        payload_getD_term msg])
  simpa using hrun

/-! ## Short buffers -/

theorem checkMagic_short (pb : List Nat) (h : pb.length < 24) : checkMagic pb = false := by
  simp only [checkMagic, decide_eq_false_iff_not]
  intro hmag
  simp only [unhideLo] at hmag
  have hlen := unhideGo_length_le pb 3 _ _ _ _ hmag
  simp only [STEG_MAGIC, List.length_cons, List.length_nil] at hlen
  omega

theorem unhide_short (img : Ppm) (h : img.pixelBytes.length < 24) :
    unhide img = .error .STEG_NO_MSG := by
  unfold unhide
  rw [checkMagic_short _ h]
  simp

/-! ## Characterising a successful hide -/

theorem hide_ok_iff (img : Ppm) (msg : List Nat) (out : Ppm) :
    hide img msg = .ok out ↔
      checkMagic img.pixelBytes = false ∧
      3 + msg.length + 1 ≤ img.pixelBytes.length / 8 ∧
      out = { img with
        pixelBytes := packList (STEG_MAGIC ++ msg ++ [0]) img.pixelBytes 0 } := by
  unfold hide
  split
  case isTrue h => simp [h]
  case isFalse h =>
    rw [Bool.not_eq_true] at h
    split
    case isTrue h2 =>
      simp only [STEG_MAGIC, List.length_cons, List.length_nil] at h2
      constructor
      · intro hh
        exact absurd hh (by simp)
      · rintro ⟨-, h3, -⟩
        omega
    case isFalse h2 =>
      simp only [STEG_MAGIC, List.length_cons, List.length_nil] at h2
      have h2' : 3 + msg.length + 1 ≤ img.pixelBytes.length / 8 := by omega
      simp [h, h2', eq_comm]

end Steg

namespace Steg

/-- Any buffer whose first three decoded characters are s, t, g
(and that has at least 3 characters of decodable room) passes `checkMagic`. -/
theorem checkMagic_of_decode (b : List Nat) (hlen : 3 ≤ b.length / 8)
    (h0 : decodeChar b 0 = 115) (h1 : decodeChar b 8 = 116)
    (h2 : decodeChar b 16 = 103) : checkMagic b = true := by
  simp only [checkMagic, decide_eq_true_eq, unhideLo]
  have hf : (b.length / 8 * 8 - 0 * 8) / 8 = b.length / 8 := by omega
  rw [hf]
  have hz : (0 : Nat) * 8 = 0 := by omega
  rw [hz]
  have hrun := unhideGo_bounded b 3 [115, 116, 103] (b.length / 8) 0 []
    (by simp) (by simp)
    (by simp only [List.length_cons, List.length_nil]; omega)
    (fun t ht => by
      simp only [List.length_cons, List.length_nil] at ht
      simp only [Nat.zero_add]
      interval_cases t
      · simpa using h0
      · simpa using h1
      · simpa using h2)
    (by decide)
  simpa [STEG_MAGIC] using hrun

theorem getD_map_range (f : Nat → Nat) (n t : Nat) (ht : t < n) :
    ((List.range n).map f).getD t 0 = f t := by
  rw [List.getD_eq_getElem _ _ (by simp [ht])]
  simp

/-! ## Claim theorems -/

/-- C3 (confirmed): for every byte buffer `b` accepted by `parse`,
`serialize (parse b) = b` — the header bytes and pixel bytes concatenate
back to the original buffer byte for byte. -/
theorem c3_parse_serialize_roundtrip (b : List Nat) (img : Ppm)
    (h : parse b = some img) : serialize img = b := by
  unfold parse at h
  rcases hf : ppmFormat b with _ | f <;> rw [hf] at h
  · cases h
  · simp only [Option.map_some'] at h
    injection h with h
    subst h
    simp [serialize]

/-- Witness for C3 at a concrete well-formed P6 buffer. -/
theorem c3_parse_serialize_roundtrip_witness :
    serialize ⟨1, 1, 255, [80,54,32,49,32,49,32,50,53,53,10], [1,2,3]⟩ =
      [80,54,32,49,32,49,32,50,53,53,10,1,2,3] :=
  c3_parse_serialize_roundtrip [80,54,32,49,32,49,32,50,53,53,10,1,2,3] _ (by rfl)

/-- C4 (code bug): the magic test of `ppmFormat` rejects only when BOTH
magic characters differ from P6 (a conjunction where the documentation
requires a disjunction), so a buffer whose magic marker is "P5" — which
does not match the supported value "P6" — is nevertheless parsed
successfully instead of failing with a format error. -/
theorem c4_magic_check_bug :
    p5Buf.take 2 ≠ [80, 54] ∧
    parse p5Buf = some ⟨1, 1, 255, [80,53,32,49,32,49,32,50,53,53,10], [7,8,9]⟩ := by
  constructor
  · decide
  · rfl

/-- C1 (amended): whenever `hide img msg` succeeds and every message byte
is nonzero and below 256, `unhide` on the result returns exactly `msg`
(prefix and terminator excluded).  (A zero message byte truncates the
recovered message at that byte, and a byte ≥ 256 is recovered modulo 256,
so both exclusions are necessary.) -/
theorem c1_roundtrip_amended (img : Ppm) (msg : List Nat) (out : Ppm)
    (hout : hide img msg = .ok out)
    (hbytes : ∀ b ∈ msg, 0 < b ∧ b < 256) :
    unhide out = .ok msg := by
  rw [hide_ok_iff] at hout
  obtain ⟨-, hcap, rfl⟩ := hout
  have hpix : ({ img with
      pixelBytes := packList (STEG_MAGIC ++ msg ++ [0]) img.pixelBytes 0 } : Ppm).pixelBytes =
      packList (STEG_MAGIC ++ msg ++ [0]) img.pixelBytes 0 := rfl
  unfold unhide
  rw [hpix, checkMagic_hide img.pixelBytes msg (by omega),
    unhideLo_hide img.pixelBytes msg (by omega) hbytes]
  simp

/-- Witness for C1: hiding `[65]` in a 48-byte all-zero image and
unhiding recovers `[65]`. -/
theorem c1_roundtrip_amended_witness :
    unhide ⟨4, 4, 255, [], hidden48A⟩ = .ok [65] :=
  c1_roundtrip_amended img48 [65] ⟨4, 4, 255, [], hidden48A⟩ (by rfl) (by decide)

/-- Counterexample for C1 as stated: the message `[0]` fits
(`0 ≤ 1 ≤ capacity - 4 = 2`) and `hide` succeeds, but the round trip
returns `[]`, not `[0]` — the decoder stops at the first zero byte. -/
theorem c1_roundtrip_counterexample :
    (hide img48 [0]).map unhide = .ok (.ok ([] : List Nat)) ∧
    ([] : List Nat) ≠ [0] := by
  constructor
  · rfl
  · decide

/-- C7 (confirmed): a successful `hide` leaves the pixel bytes beginning
with the bit-encoded recognition prefix, so a second `hide` — with any
message — fails with the already-hidden error. -/
theorem c7_double_hide (img : Ppm) (m1 m2 : List Nat) (out : Ppm)
    (hout : hide img m1 = .ok out) :
    hide out m2 = .error .STEG_MSG := by
  rw [hide_ok_iff] at hout
  obtain ⟨-, hcap, rfl⟩ := hout
  have hpix : ({ img with
      pixelBytes := packList (STEG_MAGIC ++ m1 ++ [0]) img.pixelBytes 0 } : Ppm).pixelBytes =
      packList (STEG_MAGIC ++ m1 ++ [0]) img.pixelBytes 0 := rfl
  unfold hide
  rw [hpix, checkMagic_hide img.pixelBytes m1 (by omega)]
  simp

/-- Witness for C7. -/
theorem c7_double_hide_witness :
    hide ⟨4, 4, 255, [], hidden48A⟩ [7] = .error .STEG_MSG :=
  c7_double_hide img48 [65] [7] ⟨4, 4, 255, [], hidden48A⟩ (by rfl)

/-- C6 (confirmed): a successful `hide` returns a clone agreeing with the
input on the header bytes, on the upper 7 bits of every pixel byte, and
on every pixel byte from index `8 * (msg.length + 4)` on; only the LSBs
of the first `8 * (msg.length + 4)` pixel bytes carry payload.  (`hide`
is a pure function of the embedding: the input image value is untouched.) -/
theorem c6_hide_frame (img : Ppm) (msg : List Nat) (out : Ppm)
    (hout : hide img msg = .ok out) :
    out.hdrBytes = img.hdrBytes ∧
    out.pixelBytes.length = img.pixelBytes.length ∧
    (∀ i, out.pixelBytes.getD i 0 / 2 = img.pixelBytes.getD i 0 / 2) ∧
    (∀ i, 8 * (msg.length + 4) ≤ i →
      out.pixelBytes.getD i 0 = img.pixelBytes.getD i 0) := by
  rw [hide_ok_iff] at hout
  obtain ⟨-, -, rfl⟩ := hout
  refine ⟨rfl, packList_length _ _ _, fun i => packList_getD_div2 _ _ _ _, fun i hi => ?_⟩
  exact packList_getD_ge _ _ _ _ (by rw [payload_length]; omega)

/-- Witness for C6: in `hide img48 [65]` the pixel byte at index 45
(past the payload) is unchanged. -/
theorem c6_hide_frame_witness :
    (⟨4, 4, 255, [], hidden48A⟩ : Ppm).pixelBytes.getD 45 0 =
      img48.pixelBytes.getD 45 0 :=
  (c6_hide_frame img48 [65] ⟨4, 4, 255, [], hidden48A⟩ (by rfl)).2.2.2 45 (by decide)

/-- C9 (amended): `hide` embeds, for each message position, exactly the
low-order 8 bits of the supplied character code (`msg[j] % 256`): codes
below 256 are embedded faithfully, larger ones are silently truncated. -/
theorem c9_truncation_amended (img : Ppm) (msg : List Nat) (out : Ppm)
    (hout : hide img msg = .ok out) (j : Nat) (hj : j < msg.length) :
    decodeChar out.pixelBytes (8 * (3 + j)) = msg.getD j 0 % 256 := by
  rw [hide_ok_iff] at hout
  obtain ⟨-, hcap, rfl⟩ := hout
  have hpix : ({ img with
      pixelBytes := packList (STEG_MAGIC ++ msg ++ [0]) img.pixelBytes 0 } : Ppm).pixelBytes =
      packList (STEG_MAGIC ++ msg ++ [0]) img.pixelBytes 0 := rfl
  rw [hpix, decodeChar_hide img.pixelBytes msg (3 + j) (by omega) (by omega),
    payload_getD_msg msg j hj]

/-- Witness for C9: hiding the single character code 321 embeds
`321 % 256 = 65`. -/
theorem c9_truncation_amended_witness :
    decodeChar (⟨4, 4, 255, [], hidden48A⟩ : Ppm).pixelBytes (8 * (3 + 0)) = 321 % 256 :=
  c9_truncation_amended img48 [321] ⟨4, 4, 255, [], hidden48A⟩ (by rfl) 0 (by decide)

/-- Counterexample for C9 as stated: the character code 321 is not
embedded in full — hide-then-unhide returns `[65]`, i.e. only the
low-order 8 bits survive. -/
theorem c9_truncation_counterexample :
    (hide img48 [321]).map unhide = .ok (.ok [65]) ∧ (65 : Nat) ≠ 321 := by
  constructor
  · rfl
  · decide

end Steg

namespace Steg

/-- C2 (amended): provided the image carries no recognizable prior payload
(`checkMagic` is consulted first and preempts the capacity check), hide
fails with the capacity error exactly when `3 + msg.length + 1` exceeds
`floor(pixelBytes.length / 8)`; a message of the maximal length
`floor(pixels/8) - 4` succeeds; and on an image with 6 pixel bytes even
the empty message fails with the capacity error. -/
theorem c2_capacity_amended (img : Ppm) (msg : List Nat) (img6 : Ppm)
    (hm : checkMagic img.pixelBytes = false)
    (h6 : img6.pixelBytes.length = 6) :
    (hide img msg = .error .STEG_TOO_BIG ↔
      img.pixelBytes.length / 8 < 3 + msg.length + 1) ∧
    (4 ≤ img.pixelBytes.length / 8 → msg.length = img.pixelBytes.length / 8 - 4 →
      (hide img msg).isOk = true) ∧
    hide img6 [] = .error .STEG_TOO_BIG := by
  have hdef : hide img msg =
      if img.pixelBytes.length / 8 < STEG_MAGIC.length + msg.length + 1 then
        (.error .STEG_TOO_BIG : Except StegError Ppm)
      else
        .ok { img with pixelBytes := packList (STEG_MAGIC ++ msg ++ [0]) img.pixelBytes 0 } := by
    unfold hide
    rw [hm]
    simp
  refine ⟨?_, ?_, ?_⟩
  · rw [hdef]
    split
    case isTrue h2 =>
      simp only [STEG_MAGIC, List.length_cons, List.length_nil] at h2
      constructor
      · intro _
        omega
      · intro _
        rfl
    case isFalse h2 =>
      simp only [STEG_MAGIC, List.length_cons, List.length_nil] at h2
      constructor
      · intro hh
        cases hh
      · intro hlt
        exfalso
        omega
  · intro h4 hlen
    rw [hdef,
      if_neg (by simp only [STEG_MAGIC, List.length_cons, List.length_nil]; omega)]
    rfl
  · unfold hide
    rw [checkMagic_short img6.pixelBytes (by omega)]
    rw [if_neg (by simp)]
    rw [if_pos (by simp only [STEG_MAGIC, List.length_cons, List.length_nil, h6]; omega)]

/-- Witness for C2 on a 48-byte zero image (capacity 6, maximal message
length 2) and the 2x1 image with 6 pixel bytes. -/
theorem c2_capacity_amended_witness :
    (hide img48 [1, 2] = .error .STEG_TOO_BIG ↔
      img48.pixelBytes.length / 8 < 3 + [1, 2].length + 1) ∧
    (4 ≤ img48.pixelBytes.length / 8 → [1, 2].length = img48.pixelBytes.length / 8 - 4 →
      (hide img48 [1, 2]).isOk = true) ∧
    hide ⟨2, 1, 255, [], List.replicate 6 0⟩ [] = .error .STEG_TOO_BIG :=
  c2_capacity_amended img48 [1, 2] ⟨2, 1, 255, [], List.replicate 6 0⟩ (by decide) (by rfl)

/-- Counterexample for C2 as stated: on an image already carrying the
prefix, the capacity condition holds for the empty message but hide
fails with the already-hidden error, not the capacity error. -/
theorem c2_capacity_counterexample :
    magicImg24.pixelBytes.length / 8 < 3 + ([] : List Nat).length + 1 ∧
    hide magicImg24 [] = .error .STEG_MSG ∧
    StegError.STEG_MSG ≠ StegError.STEG_TOO_BIG := by
  refine ⟨by decide, by rfl, by decide⟩

/-- C5 (amended): in bounded mode `unhideLo` returns exactly `maxBytes`
reassembled bytes provided at least `maxBytes` characters fit below
`maxOffset` and none of them decodes to zero; a decoded zero byte stops
the loop early (see the counterexample), so "regardless of the byte
values" fails. -/
theorem c5_bounded_unpack_amended (bytes : List Nat) (n : Nat)
    (hn : 0 < n) (hcap : n ≤ bytes.length / 8)
    (hnz : ∀ t, t < n → decodeChar bytes (8 * t) ≠ 0) :
    unhideLo bytes 0 (n : Int) =
      some ((List.range n).map fun t => decodeChar bytes (8 * t)) ∧
    ((List.range n).map fun t => decodeChar bytes (8 * t)).length = n := by
  refine ⟨?_, by simp⟩
  simp only [unhideLo]
  have hf : (bytes.length / 8 * 8 - 0 * 8) / 8 = bytes.length / 8 := by omega
  rw [hf]
  have hz : (0 : Nat) * 8 = 0 := by omega
  rw [hz]
  have hrun := unhideGo_bounded bytes n
    ((List.range n).map fun t => decodeChar bytes (8 * t)) (bytes.length / 8) 0 []
    (by
      intro hnil
      have := congrArg List.length hnil
      simp at this
      omega)
    (by simp)
    (by simp only [List.length_map, List.length_range]; omega)
    (fun t ht => by
      simp only [List.length_map, List.length_range] at ht
      rw [getD_map_range _ _ _ ht]
      simp)
    (fun t ht => by
      simp only [List.length_map, List.length_range] at ht
      rw [getD_map_range _ _ _ ht]
      exact hnz t ht)
  simpa using hrun

/-- Witness for C5: probing 3 bytes from a prefix-bearing buffer returns
exactly the 3 decoded bytes. -/
theorem c5_bounded_unpack_amended_witness :
    unhideLo stgBits 0 3 =
      some ((List.range 3).map fun t => decodeChar stgBits (8 * t)) ∧
    ((List.range 3).map fun t => decodeChar stgBits (8 * t)).length = 3 :=
  c5_bounded_unpack_amended stgBits 3 (by decide) (by decide) (by decide)

/-- Counterexample for C5 as stated: on a 24-zero-byte buffer, bounded
mode with `maxBytes = 3` returns 0 bytes, not 3 — the loop stops at the
first decoded zero byte. -/
theorem c5_bounded_unpack_counterexample :
    unhideLo (List.replicate 24 0) 0 3 = some [] ∧
    Option.map List.length (unhideLo (List.replicate 24 0) 0 3) ≠ some 3 := by
  constructor
  · rfl
  · decide

/-- C10 (confirmed): the decoding loop depends only on the pixel bytes
below `floor(len/8)*8 ≤ len` — two equal-length buffers agreeing there
decode identically, so no out-of-range index influences the result and
the trailing `len mod 8` bytes never participate; moreover any image
with fewer than 24 pixel bytes fails `checkMagic`, so `unhide` returns
the no-message error rather than reading further. -/
theorem c10_decode_bounds (a b : List Nat) (off : Nat) (ml : Int) (img : Ppm)
    (hlen : a.length = b.length)
    (hagree : ∀ x, x < a.length / 8 * 8 → a.getD x 0 = b.getD x 0)
    (hshort : img.pixelBytes.length < 24) :
    unhideLo a off ml = unhideLo b off ml ∧
    checkMagic img.pixelBytes = false ∧
    unhide img = .error .STEG_NO_MSG := by
  refine ⟨?_, checkMagic_short _ hshort, unhide_short _ hshort⟩
  simp only [unhideLo]
  rw [hlen]
  apply unhideGo_congr
  intro x hx1 hx2
  apply hagree
  rw [hlen]
  omega

/-- Witness for C10: two 9-byte buffers differing only in the trailing
partial character decode identically, and a 6-byte image reports
no message. -/
theorem c10_decode_bounds_witness :
    unhideLo (List.replicate 8 0 ++ [9]) 0 (-1) = unhideLo (List.replicate 9 0) 0 (-1) ∧
    checkMagic (List.replicate 6 0) = false ∧
    unhide ⟨2, 1, 255, [], List.replicate 6 0⟩ = .error .STEG_NO_MSG :=
  c10_decode_bounds (List.replicate 8 0 ++ [9]) (List.replicate 9 0) 0 (-1)
    ⟨2, 1, 255, [], List.replicate 6 0⟩ (by decide) (by decide) (by decide)

end Steg

namespace Steg

/-- C8 (amended): for an image produced by a successful hide of a
full-capacity message of nonzero bytes below 256, forcing the first bit
of the encoding of the terminator (so the terminator decodes to 128 ≠ 0)
makes `unhide` fail with the corrupt-message error.  For messages below
full capacity the trailing pixel LSBs may still decode a zero byte, in
which case `unhide` instead returns an extended message (see the
counterexample), so the claim cannot hold for every successful hide. -/
theorem c8_corrupt_terminator_amended (img : Ppm) (msg : List Nat) (out : Ppm)
    (hout : hide img msg = .ok out)
    (hfull : msg.length + 4 = img.pixelBytes.length / 8)
    (hbytes : ∀ b ∈ msg, 0 < b ∧ b < 256) :
    unhide { out with pixelBytes := setLSB out.pixelBytes (8 * (3 + msg.length)) 1 } =
      .error .STEG_BAD_MSG := by
  rw [hide_ok_iff] at hout
  obtain ⟨-, hcap, rfl⟩ := hout
  show unhide { img with
      pixelBytes := setLSB (packList (STEG_MAGIC ++ msg ++ [0]) img.pixelBytes 0)
        (8 * (3 + msg.length)) 1 } = .error .STEG_BAD_MSG
  set packed := packList (STEG_MAGIC ++ msg ++ [0]) img.pixelBytes 0 with hpk
  set corrupt := setLSB packed (8 * (3 + msg.length)) 1 with hcr
  have hplen : packed.length = img.pixelBytes.length := by
    rw [hpk]
    exact packList_length _ _ _
  have hclen : corrupt.length = img.pixelBytes.length := by
    rw [hcr, setLSB_length, hplen]
  have hj0 : 8 * (3 + msg.length) < img.pixelBytes.length := by omega
  have hd0 : decodeChar corrupt 0 = 115 := by
    have hc : decodeChar corrupt 0 = decodeChar packed 0 := by
      rw [hcr]
      exact decodeChar_congr _ _ 0 (fun k hk => setLSB_getD_ne _ _ _ _ (by omega))
    rw [hc, hpk]
    simpa [STEG_MAGIC] using decodeChar_hide img.pixelBytes msg 0 (by omega) (by omega)
  have hd1 : decodeChar corrupt 8 = 116 := by
    have hc : decodeChar corrupt 8 = decodeChar packed 8 := by
      rw [hcr]
      exact decodeChar_congr _ _ 8 (fun k hk => setLSB_getD_ne _ _ _ _ (by omega))
    rw [hc, hpk]
    simpa [STEG_MAGIC] using decodeChar_hide img.pixelBytes msg 1 (by omega) (by omega)
  have hd2 : decodeChar corrupt 16 = 103 := by
    have hc : decodeChar corrupt 16 = decodeChar packed 16 := by
      rw [hcr]
      exact decodeChar_congr _ _ 16 (fun k hk => setLSB_getD_ne _ _ _ _ (by omega))
    rw [hc, hpk]
    simpa [STEG_MAGIC] using decodeChar_hide img.pixelBytes msg 2 (by omega) (by omega)
  have hcm : checkMagic corrupt = true :=
    checkMagic_of_decode corrupt (by rw [hclen]; omega) hd0 hd1 hd2
  have hbad : unhideLo corrupt 3 (-1) = none := by
    simp only [unhideLo]
    rw [hclen]
    have hf : (img.pixelBytes.length / 8 * 8 - 3 * 8) / 8 =
        img.pixelBytes.length / 8 - 3 := by omega
    rw [hf]
    have h38 : (3 : Nat) * 8 = 24 := by omega
    rw [h38]
    apply unhideGo_unterminated
    intro t ht
    rcases Nat.lt_or_ge t msg.length with htl | hte
    · have hmemt : 0 < msg.getD t 0 ∧ msg.getD t 0 < 256 := by
        have : msg.getD t 0 ∈ msg := by
          rw [List.getD_eq_getElem msg 0 htl]
          exact List.getElem_mem htl
        exact hbytes _ this
      have hcg : decodeChar corrupt (24 + 8 * t) = decodeChar packed (24 + 8 * t) := by
        rw [hcr]
        exact decodeChar_congr _ _ _ (fun k hk => setLSB_getD_ne _ _ _ _ (by omega))
      rw [hcg]
      have h24 : 24 + 8 * t = 8 * (3 + t) := by ring
      rw [h24, hpk, decodeChar_hide img.pixelBytes msg (3 + t) (by omega) (by omega),
        payload_getD_msg msg t htl]
      omega
    · have hteq : t = msg.length := by omega
      rw [hteq]
      have h24 : 24 + 8 * msg.length = 8 * (3 + msg.length) := by ring
      rw [h24]
      have hlsb : corrupt.getD (8 * (3 + msg.length)) 0 % 2 = 1 := by
        rw [hcr, setLSB_getD_self _ _ _ (by rw [hplen]; omega)]
        omega
      have := decodeChar_ge_128 corrupt _ hlsb
      omega
  have hcor : ({ img with pixelBytes := corrupt } : Ppm).pixelBytes = corrupt := rfl
  unfold unhide
  rw [hcor, hcm, hbad]
  rfl

/-- Witness for C8: hiding the full-capacity message `[65, 66]` in the
48-byte zero image, then forcing the first encoded bit of the terminator,
yields the corrupt-message error. -/
theorem c8_corrupt_terminator_amended_witness :
    unhide { (⟨4, 4, 255, [], hidden48AB⟩ : Ppm) with
      pixelBytes := setLSB (⟨4, 4, 255, [], hidden48AB⟩ : Ppm).pixelBytes
        (8 * (3 + [65, 66].length)) 1 } = .error .STEG_BAD_MSG :=
  c8_corrupt_terminator_amended img48 [65, 66] ⟨4, 4, 255, [], hidden48AB⟩
    (by rfl) (by decide) (by decide)

/-- Counterexample for C8 as stated: hiding `[65]` in the 48-byte zero
image leaves 8 all-zero trailing pixel bytes; after forcing the
encoding of the terminator so that it decodes to 128, `unhide` does not fail — it
returns `[65, 128]`, because the trailing bytes decode a zero byte. -/
theorem c8_corrupt_terminator_counterexample :
    hide img48 [65] = .ok ⟨4, 4, 255, [], hidden48A⟩ ∧
    decodeChar (setLSB hidden48A (8 * (3 + 1)) 1) (8 * (3 + 1)) = 128 ∧
    unhide ⟨4, 4, 255, [], setLSB hidden48A (8 * (3 + 1)) 1⟩ = .ok [65, 128] := by
  refine ⟨by rfl, by rfl, by rfl⟩

end Steg
